import Mathlib

/-!
# Verification of the Logseq → Hugo conversion pipeline

Shallow embedding of `scripts/logseq_to_hugo.py` (the content-transformation
core: property parser, inline/block rewriters, outline converter, front
matter builder, output path resolver, page pipeline) together with proofs
about the spec's claims.

Text is modelled as `List Char` (one `String` wrapper per public entry
point).  Python regexes are hand-translated into deterministic character
scanners; each scanner's doc comment records the regex it embeds and, where
the regex engine's greedy/backtracking behaviour matters, how the scanner
reproduces it.  Python `\w` is modelled on ASCII (the inputs the script is
designed for), `str.lower`/`str.upper` as ASCII case mapping, and
`str.splitlines` as splitting on `'\n'`.
-/

namespace LogseqHugo

/-- Python regex `\w` on ASCII input: letters, digits, underscore. -/
def isWordChar (c : Char) : Bool :=
  c.isAlpha || c.isDigit || c == '_'

/-- Character class `[\w_-]` used for property keys. -/
def isKeyChar (c : Char) : Bool :=
  isWordChar c || c == '-'

/-- Character class of word chars, slash and hyphen, used for the tail of a
tag token. -/
def isTagChar (c : Char) : Bool :=
  isWordChar c || c == '/' || c == '-'

/-- Python whitespace (`\s`, `str.strip`) restricted to ASCII. -/
def isPyWS (c : Char) : Bool :=
  c == ' ' || c == '\t' || c == '\n' || c == '\r' || c == '\x0b' || c == '\x0c'

/-- Python `str.strip()`: remove leading and trailing whitespace. -/
def pyStrip (l : List Char) : List Char :=
  ((l.dropWhile isPyWS).reverse.dropWhile isPyWS).reverse

/-- Python `str.lower()` (ASCII). -/
def pyLower (l : List Char) : List Char := l.map Char.toLower

/-- Python `str.upper()` (ASCII). -/
def pyUpper (l : List Char) : List Char := l.map Char.toUpper

/-- Drop a literal prefix, returning the remainder on success. -/
def litPrefixDrop (pat l : List Char) : Option (List Char) :=
  if pat.isPrefixOf l then some (l.drop pat.length) else none

/-- Python `dict` update: assignment replaces the value of an existing key in
place, otherwise appends the new binding. -/
def dictInsert (m : List (String × String)) (k v : String) :
    List (String × String) :=
  if m.any (fun p => p.1 == k) then
    m.map (fun p => if p.1 == k then (k, v) else p)
  else m ++ [(k, v)]

/-- Python `dict.get(k, dflt)`. -/
def dictGet (m : List (String × String)) (k dflt : String) : String :=
  match m.lookup k with
  | some v => v
  | none => dflt

/-- Match of `^(\w[\w_-]*)::[ \t]*(.*)` (the property-line regex used by
`parse_logseq_properties` and for inline bullet properties), returning
(key, rest-after-optional-blanks).  The greedy `[\w_-]*` run cannot contain
`:`, so the match is deterministic. -/
def propKeyMatch : List Char → Option (List Char × List Char)
  | [] => none
  | c :: rest =>
    if isWordChar c then
      match rest.dropWhile isKeyChar with
      | ':' :: ':' :: r2 =>
        some (c :: rest.takeWhile isKeyChar,
              r2.dropWhile (fun d => d == ' ' || d == '\t'))
      | _ => none
    else none

/-- Registration of one parsed property: `props[key.lower()] = value.strip()`. -/
def recordProp (props : List (String × String)) (k v : List Char) :
    List (String × String) :=
  dictInsert props (String.mk (pyLower k)) (String.mk (pyStrip v))

/-- The line-scanning loop of `parse_logseq_properties`: record property
lines; `break` at the first line whose stripped form is non-empty, does not
match the property regex, and whose original text does not start with `-`;
all other lines are skipped without stopping. -/
def parsePropsAux : List (List Char) → List (String × String) →
    List (String × String)
  | [], props => props
  | l :: ls, props =>
    match propKeyMatch (pyStrip l) with
    | some kv => parsePropsAux ls (recordProp props kv.1 kv.2)
    | none =>
      if pyStrip l ≠ [] ∧ l.head? ≠ some '-' then props
      else parsePropsAux ls props

/-- `splitNl` splits on every `'\n'` (like Python `str.split('\n')`). -/
def splitNl : List Char → List (List Char)
  | [] => [[]]
  | c :: t =>
    if c = '\n' then [] :: splitNl t
    else
      match splitNl t with
      | [] => [[c]]
      | h :: r => (c :: h) :: r

/-- Python `str.splitlines()` (inputs modelled as `'\n'`-separated): empty
text gives no lines, and a trailing newline terminates the last line rather
than opening an empty one. -/
def splitlinesPy (l : List Char) : List (List Char) :=
  if l = [] then []
  else
    let p := splitNl l
    if p.getLast? = some [] then p.dropLast else p

/-- `parse_logseq_properties`: extract `key:: value` properties from the top
of a Logseq page. -/
def parse_logseq_properties (text : String) : List (String × String) :=
  parsePropsAux (splitlinesPy text.data) []

/-- A line at which `parse_logseq_properties` stops scanning: non-blank,
not a property line, and the original line does not start with `-`. -/
def parserStops (l : List Char) : Bool :=
  (propKeyMatch (pyStrip l)).isNone &&
    decide (pyStrip l ≠ [] ∧ l.head? ≠ some '-')

/-- Recording pass with no stopping: every property line in the list is
recorded. -/
def recordAll : List (List Char) → List (String × String) →
    List (String × String)
  | [], props => props
  | l :: ls, props =>
    match propKeyMatch (pyStrip l) with
    | some kv => recordAll ls (recordProp props kv.1 kv.2)
    | none => recordAll ls props

theorem parsePropsAux_eq_recordAll (ls : List (List Char))
    (props : List (String × String)) :
    parsePropsAux ls props =
      recordAll (ls.takeWhile (fun l => !(parserStops l))) props := by
  induction ls generalizing props with
  | nil => rfl
  | cons l ls ih =>
    rw [List.takeWhile_cons]
    cases h : propKeyMatch (pyStrip l) with
    | some kv =>
      have hs : parserStops l = false := by simp [parserStops, h]
      simp only [hs, Bool.not_false, if_true]
      simp only [parsePropsAux, h, recordAll]
      exact ih _
    | none =>
      by_cases hc : pyStrip l ≠ [] ∧ l.head? ≠ some '-'
      · have hs : parserStops l = true := by simp [parserStops, h, hc.1, hc.2]
        simp only [hs, Bool.not_true, Bool.false_eq_true, if_false]
        simp only [parsePropsAux, h, if_pos hc, recordAll]
      · have hs : parserStops l = false := by
          simp only [parserStops, h, Option.isNone_none, Bool.true_and]
          simpa using hc
        simp only [hs, Bool.not_false, if_true]
        simp only [parsePropsAux, h, if_neg hc, recordAll]
        exact ih _

/-! ## Inline rewriter (`apply_inline_conversions`) -/

/-- Match of the asset-path pattern `\.\.[\/\\]assets[\/\\]` at the start of
the list, returning the remainder. -/
def assetsMatch : List Char → Option (List Char)
  | '.' :: '.' :: s1 :: 'a' :: 's' :: 's' :: 'e' :: 't' :: 's' :: s2 :: rest =>
    if (s1 == '/' || s1 == '\\') && (s2 == '/' || s2 == '\\') then some rest
    else none
  | _ => none

/-- Global substitution of `\.\.[\/\\]assets[\/\\]` by `/assets/`
(left-to-right, non-overlapping, like `re.sub`).  The fuel argument bounds
the number of scan steps; it is instantiated with the input length. -/
def assetsSubAux : Nat → List Char → List Char
  | 0, l => l
  | _ + 1, [] => []
  | fuel + 1, c :: t =>
    match assetsMatch (c :: t) with
    | some rest => "/assets/".data ++ assetsSubAux fuel rest
    | none => c :: assetsSubAux fuel t

def assetsSub (l : List Char) : List Char := assetsSubAux l.length l

/-- For the non-greedy `\^\^(.+?)\^\^`: given the characters after an opening
`^^`, find the shortest non-empty content followed by a closing `^^`. -/
def findCaretEnd : Nat → List Char → Option (List Char × List Char)
  | 0, _ => none
  | _ + 1, [] => none
  | fuel + 1, c :: t =>
    if "^^".data.isPrefixOf t then some ([c], t.drop 2)
    else
      match findCaretEnd fuel t with
      | some p => some (c :: p.1, p.2)
      | none => none

/-- Global substitution of `\^\^(.+?)\^\^` by `<mark>...</mark>`.  When an
opening `^^` has no closing pair the engine moves on by one character. -/
def markSubAux : Nat → List Char → List Char
  | 0, l => l
  | _ + 1, [] => []
  | fuel + 1, c :: t =>
    if c == '^' then
      match t with
      | '^' :: t2 =>
        match findCaretEnd t2.length t2 with
        | some p =>
          "<mark>".data ++ p.1 ++ "</mark>".data ++ markSubAux fuel p.2
        | none => c :: markSubAux fuel t
      | _ => c :: markSubAux fuel t
    else c :: markSubAux fuel t

def markSub (l : List Char) : List Char := markSubAux l.length l

/-- Match of `\[\[([^\]]+)\]\]` at the start of the list: `[[`, a non-empty
run of non-`]` characters, `]]`.  Returns (page name, remainder). -/
def refMatchCore : List Char → Option (List Char × List Char)
  | '[' :: '[' :: r =>
    let content := r.takeWhile (fun c => !(c == ']'))
    match r.drop content.length with
    | ']' :: ']' :: rest => if content.isEmpty then none else some (content, rest)
    | _ => none
  | _ => none

/-- Match of `#?\[\[([^\]]+)\]\]` at the start of the list: the optional `#`
is consumed greedily; if `[[` does not follow it, backtracking to the empty
alternative cannot succeed either since `#` is not `[`. -/
def refMatch : List Char → Option (List Char × List Char)
  | '#' :: rest => refMatchCore rest
  | l => refMatchCore l

/-- Global substitution of `#?\[\[([^\]]+)\]\]` by the page name. -/
def refSubAux : Nat → List Char → List Char
  | 0, l => l
  | _ + 1, [] => []
  | fuel + 1, c :: t =>
    match refMatch (c :: t) with
    | some p => p.1 ++ refSubAux fuel p.2
    | none => c :: refSubAux fuel t

def refSub (l : List Char) : List Char := refSubAux l.length l

/-- One step of the tag-token rule `(?<![#\w])#(\w[\w` slash `-]*)`: the
`prev` argument is the character of the scanned string immediately before the
current position (the lookbehind inspects the input string, as `re.sub`
does), and each match is replaced by the localized taxonomy link
`[#tag](/lang/tags/tag.lower()/)`. -/
def tagSubAux (lang : List Char) : Nat → Option Char → List Char → List Char
  | 0, _, l => l
  | _ + 1, _, [] => []
  | fuel + 1, prev, c :: t =>
    let prevBlocks : Bool :=
      match prev with
      | some p => p == '#' || isWordChar p
      | none => false
    if c == '#' && !prevBlocks then
      match t with
      | d :: _ =>
        if isWordChar d then
          let tag := t.takeWhile isTagChar
          "[#".data ++ tag ++ "](/".data ++ lang ++ "/tags/".data ++
            pyLower tag ++ "/)".data ++
            tagSubAux lang fuel tag.getLast? (t.drop tag.length)
        else c :: tagSubAux lang fuel (some c) t
      | [] => [c]
    else c :: tagSubAux lang fuel (some c) t

def tagSub (lang l : List Char) : List Char := tagSubAux lang l.length none l

/-- `re.search` of `pat\s+(\d+)` (with `pat` a literal such as `:width`):
first occurrence anywhere, returning the captured digit run. -/
def searchNumAttr (pat : List Char) : Nat → List Char → Option (List Char)
  | 0, _ => none
  | _ + 1, [] => none
  | fuel + 1, c :: t =>
    match litPrefixDrop pat (c :: t) with
    | some (d :: r) =>
      if isPyWS d then
        let digits := ((d :: r).dropWhile isPyWS).takeWhile Char.isDigit
        if digits.isEmpty then searchNumAttr pat fuel t else some digits
      else searchNumAttr pat fuel t
    | _ => searchNumAttr pat fuel t

/-- Match of the sized-image pattern
`!\[([^\]]*)\]\(([^)]+)\)` followed by a brace-delimited attribute list, at
the start of the list.  Returns (alt, path, attrs, remainder). -/
def imgMatch : List Char → Option (List Char × List Char × List Char × List Char)
  | '!' :: '[' :: r =>
    let alt := r.takeWhile (fun c => !(c == ']'))
    match r.drop alt.length with
    | ']' :: '(' :: r2 =>
      let path := r2.takeWhile (fun c => !(c == ')'))
      if path.isEmpty then none
      else
        match r2.drop path.length with
        | ')' :: '\x7b' :: r3 =>
          let attrs := r3.takeWhile (fun c => !(c == '\x7d'))
          if attrs.isEmpty then none
          else
            match r3.drop attrs.length with
            | '\x7d' :: rest => some (alt, path, attrs, rest)
            | _ => none
        | _ => none
    | _ => none
  | _ => none

/-- `convert_image_with_size`: build the `<img>` replacement.  Only width is
applied when present; otherwise height; `alt=` only when alt text is
non-empty; the path's `../assets/` prefix is rewritten. -/
def imgReplace (alt path attrs : List Char) : List Char :=
  let path2 := assetsSub path
  let h := searchNumAttr ":height".data attrs.length attrs
  let w := searchNumAttr ":width".data attrs.length attrs
  let parts : List (List Char) :=
    ["src=\"".data ++ path2 ++ "\"".data] ++
    (if alt.isEmpty then [] else ["alt=\"".data ++ alt ++ "\"".data]) ++
    (match w with
     | some d => ["width=\"".data ++ d ++ "\"".data]
     | none =>
       match h with
       | some d => ["height=\"".data ++ d ++ "\"".data]
       | none => [])
  "<img ".data ++ (List.intersperse " ".data parts).flatten ++ ">".data

/-- Global substitution of the sized-image pattern by an `<img>` tag. -/
def imgSubAux : Nat → List Char → List Char
  | 0, l => l
  | _ + 1, [] => []
  | fuel + 1, c :: t =>
    match imgMatch (c :: t) with
    | some (alt, path, attrs, rest) => imgReplace alt path attrs ++ imgSubAux fuel rest
    | none => c :: imgSubAux fuel t

def imgSub (l : List Char) : List Char := imgSubAux l.length l

/-- `apply_inline_conversions`: the five line-level rewrites in source
order — sized images, asset paths, `^^` highlights, `[[...]]` references,
tag tokens. -/
def apply_inline_conversions (lang l : List Char) : List Char :=
  tagSub lang (refSub (markSub (assetsSub (imgSub l))))

/-! ## Block rewriters (`convert_admonitions`, video embeds) -/

/-- Case-insensitive literal prefix drop (regex `re.IGNORECASE`). -/
def ciPrefixDrop (pat l : List Char) : Option (List Char) :=
  if decide (pat.length ≤ l.length) &&
      (List.zip pat (l.take pat.length)).all
        (fun p => p.1.toLower == p.2.toLower) then
    some (l.drop pat.length)
  else none

/-- `ADMONITION_ICONS`: Logseq/Org admonition type → emoji. -/
def ADMONITION_ICONS : List (String × String) :=
  [("NOTE", "📝"), ("TIP", "💡"), ("WARNING", "⚠️"), ("CAUTION", "🚨"),
   ("IMPORTANT", "❗"), ("EXAMPLE", "📋"), ("QUOTE", "💬"), ("PINNED", "📌")]

/-- Join a list of lines with newlines (Python `'\n'.join`). -/
def intercalateNl : List (List Char) → List Char
  | [] => []
  | [x] => x
  | x :: y :: r => x ++ '\n' :: intercalateNl (y :: r)

/-- The replacement function of `convert_admonitions`: an admonition block of
the given kind and (raw) content becomes an emoji-headed quoted block. -/
def admonReplace (kind content : List Char) : List Char :=
  let kindU := pyUpper kind
  let content2 := pyStrip content
  let icon :=
    match ADMONITION_ICONS.lookup (String.mk kindU) with
    | some i => i.data
    | none => "ℹ️".data
  "> **".data ++ icon ++ " ".data ++ kindU ++ "**\n>\n".data ++
    intercalateNl ((splitlinesPy content2).map (fun ln => "> ".data ++ ln))

/-- The non-greedy search in `#\+BEGIN_(\w+)\n(.*?)\n#\+END_\1` (DOTALL,
IGNORECASE): given the text after the BEGIN line's newline, find the
shortest content followed by a newline and a case-insensitive END marker of
the same kind.  Returns (content, remainder after the END marker). -/
def admonFindEnd (kind : List Char) : Nat → List Char → Option (List Char × List Char)
  | 0, _ => none
  | fuel + 1, l =>
    match
      (match l with
       | '\n' :: r => ciPrefixDrop ("#+END_".data ++ kind) r
       | _ => none) with
    | some rest => some ([], rest)
    | none =>
      match l with
      | c :: t =>
        match admonFindEnd kind fuel t with
        | some p => some (c :: p.1, p.2)
        | none => none
      | [] => none

/-- `convert_admonitions`: global substitution of
`#\+BEGIN_(\w+)\n(.*?)\n#\+END_\1` (DOTALL, IGNORECASE). -/
def admonSubAux : Nat → List Char → List Char
  | 0, l => l
  | _ + 1, [] => []
  | fuel + 1, c :: t =>
    match ciPrefixDrop "#+BEGIN_".data (c :: t) with
    | some r =>
      let kind := r.takeWhile isWordChar
      if kind.isEmpty then c :: admonSubAux fuel t
      else
        match r.drop kind.length with
        | '\n' :: r2 =>
          match admonFindEnd kind r2.length r2 with
          | some p => admonReplace kind p.1 ++ admonSubAux fuel p.2
          | none => c :: admonSubAux fuel t
        | _ => c :: admonSubAux fuel t
    | none => c :: admonSubAux fuel t

def admonSub (l : List Char) : List Char := admonSubAux l.length l

def isYtIdChar (c : Char) : Bool :=
  c.isAlpha || c.isDigit || c == '_' || c == '-'

/-- `re.search` of the video-host pattern
`(?:youtube\.com/watch\?v=|youtu\.be/)([a-zA-Z0-9_-]+)`. -/
def ytSearch : Nat → List Char → Option (List Char)
  | 0, _ => none
  | _ + 1, [] => none
  | fuel + 1, c :: t =>
    match litPrefixDrop "youtube.com/watch?v=".data (c :: t) <|>
        litPrefixDrop "youtu.be/".data (c :: t) with
    | some r =>
      let vid := r.takeWhile isYtIdChar
      if vid.isEmpty then ytSearch fuel t else some vid
    | none => ytSearch fuel t

/-- `convert_video_embed`: a recognized YouTube URL becomes the Hugo
shortcode, any other URL a raw `<video>` tag. -/
def videoReplace (url : List Char) : List Char :=
  let url2 := pyStrip url
  match ytSearch url2.length url2 with
  | some vid => "\x7b\x7b< youtube ".data ++ vid ++ " >\x7d\x7d".data
  | none => "<video src=\"".data ++ url2 ++ "\" controls></video>".data

/-- Match of the embed pattern (two braces, `video` or `youtube`,
whitespace, an `http(s)://` URL of non-brace characters, two closing braces)
at the start of the list.  Returns (url, remainder). -/
def videoMatch (l : List Char) : Option (List Char × List Char) :=
  match litPrefixDrop "\x7b\x7b".data l with
  | none => none
  | some r =>
    match litPrefixDrop "video".data r <|> litPrefixDrop "youtube".data r with
    | none => none
    | some r2 =>
      match r2 with
      | d :: _ =>
        if isPyWS d then
          let r3 := r2.dropWhile isPyWS
          let url := r3.takeWhile (fun c => !(c == '\x7d'))
          let minLen := if "https://".data.isPrefixOf url then 9 else 8
          if ("http://".data.isPrefixOf url || "https://".data.isPrefixOf url)
              && decide (minLen ≤ url.length) then
            match r3.drop url.length with
            | '\x7d' :: '\x7d' :: rest => some (url, rest)
            | _ => none
          else none
        else none
      | [] => none

/-- Global substitution of the `video`/`youtube` embed pattern. -/
def videoSubAux : Nat → List Char → List Char
  | 0, l => l
  | _ + 1, [] => []
  | fuel + 1, c :: t =>
    match videoMatch (c :: t) with
    | some p => videoReplace p.1 ++ videoSubAux fuel p.2
    | none => c :: videoSubAux fuel t

def videoSub (l : List Char) : List Char := videoSubAux l.length l

/-! ## Outline converter (`convert_content`) -/

/-- The converter's properties-block test
`^\w[\w_-]*::[ \t]` applied to the stripped line: unlike the parser's
property regex it demands a space or tab right after `::`. -/
def isConvPropLine : List Char → Bool
  | [] => false
  | c :: rest =>
    isWordChar c &&
      (match rest.dropWhile isKeyChar with
       | ':' :: ':' :: d :: _ => d == ' ' || d == '\t'
       | _ => false)

/-- Match of `\s*collapsed::\s*(true|false)` at the start of the line. -/
def collapsedMatch (l : List Char) : Bool :=
  match litPrefixDrop "collapsed::".data (l.dropWhile isPyWS) with
  | some r =>
    let r2 := r.dropWhile isPyWS
    "true".data.isPrefixOf r2 || "false".data.isPrefixOf r2
  | none => false

def isHexDigitDash (c : Char) : Bool :=
  ('a' ≤ c && c ≤ 'f') || c.isDigit || c == '-'

/-- Match of `\s*id::\s+[a-f0-9-]` (eight of them) at the start of the
line. -/
def idMatch (l : List Char) : Bool :=
  match litPrefixDrop "id::".data (l.dropWhile isPyWS) with
  | some (d :: r) =>
    isPyWS d &&
      (let r2 := (d :: r).dropWhile isPyWS
       decide (8 ≤ r2.length) && (r2.take 8).all isHexDigitDash)
  | _ => false

/-- Full match of `^\t*-\s*$`: an empty Logseq bullet. -/
def emptyBulletMatch (l : List Char) : Bool :=
  match l.dropWhile (fun c => c == '\t') with
  | '-' :: r => r.all isPyWS
  | _ => false

/-- Match of the bullet pattern `^(\t*)(- |\s` times-four `)(.*)`, returning
(tab depth, content).  The leading `\t*` group is greedy but backtracks so
that the second group can take `- ` or any four whitespace characters; the
engine keeps the largest possible tab group, i.e. borrows as few tabs as
possible into the four-whitespace alternative. -/
def bulletMatch (l : List Char) : Option (Nat × List Char) :=
  let t := (l.takeWhile (fun c => c == '\t')).length
  let rest := l.drop t
  if "- ".data.isPrefixOf rest then some (t, rest.drop 2)
  else
    let w := min 4 (rest.takeWhile isPyWS).length
    if 4 ≤ t + w then some (t + w - 4, rest.drop w) else none

/-- Output shape of a converted bullet: depth 0 emits the bare content,
depth ≥ 1 emits `(depth-1)` doubled spaces, a dash-space marker, then the
content. -/
def bulletFormat (tabs : Nat) (c : List Char) : List Char :=
  if tabs = 0 then c
  else List.replicate (2 * (tabs - 1)) ' ' ++ "- ".data ++ c

/-- Per-line processing of the converter once past the properties block:
drop `collapsed::`/`id::` markers, blank-line empty bullets, unpack bullet
lines (dropping internal-key inline properties, keeping only the value of
other inline properties), and pass content through the inline rewriter.
Returns `none` when the line is dropped. -/
def processBody (ik : List String) (lang : List Char) (l : List Char) :
    Option (List Char) :=
  if collapsedMatch l then none
  else if idMatch l then none
  else if emptyBulletMatch l then some []
  else
    match bulletMatch l with
    | some (tabs, content) =>
      match propKeyMatch (pyStrip content) with
      | some (k, v) =>
        if String.mk (pyLower k) ∈ ik then none
        else some (bulletFormat tabs (apply_inline_conversions lang (pyStrip v)))
      | none => some (bulletFormat tabs (apply_inline_conversions lang content))
    | none => some (apply_inline_conversions lang l)

/-- The converter's two-state line loop: while in the properties block, drop
property-looking and blank lines; the first other line switches to body
processing, which then applies to every remaining line. -/
def convAux (ik : List String) (lang : List Char) :
    Bool → List (List Char) → List (List Char)
  | _, [] => []
  | inProps, l :: ls =>
    if inProps && (isConvPropLine (pyStrip l) || (pyStrip l).isEmpty) then
      convAux ik lang true ls
    else
      match processBody ik lang l with
      | some out => out :: convAux ik lang false ls
      | none => convAux ik lang false ls

/-- Test of `^\s*<(?:img|video)\s`: a raw image or video tag line. -/
def isMediaLine (l : List Char) : Bool :=
  let r := l.dropWhile isPyWS
  (match litPrefixDrop "<img".data r with
   | some (d :: _) => isPyWS d
   | _ => false) ||
  (match litPrefixDrop "<video".data r with
   | some (d :: _) => isPyWS d
   | _ => false)

/-- Blank-line padding around raw `<img>`/`<video>` lines: insert a blank
line before such a line when the previously emitted line exists and is
non-blank, and always insert one after.  The Boolean state records whether
the last emitted line exists and is non-blank. -/
def spaceAux : Bool → List (List Char) → List (List Char)
  | _, [] => []
  | prevNonblank, l :: ls =>
    if isMediaLine l then
      (if prevNonblank then [[]] else []) ++ l :: [] :: spaceAux false ls
    else
      l :: spaceAux (!(pyStrip l).isEmpty) ls

/-- Collapse runs of more than two consecutive blank lines, keeping the
first two lines of each run.  The counter tracks the current run length. -/
def collapseAux : Nat → List (List Char) → List (List Char)
  | _, [] => []
  | k, l :: ls =>
    if (pyStrip l).isEmpty then
      if k + 1 ≤ 2 then l :: collapseAux (k + 1) ls
      else collapseAux (k + 1) ls
    else l :: collapseAux 0 ls

/-- `convert_content`: admonition and video passes, the two-state line loop,
media spacing, blank collapsing, and a final join-and-strip. -/
def convert_content (text : String) (ik : List String) (lang : String) :
    String :=
  let t2 := videoSub (admonSub text.data)
  let out := convAux ik lang.data true (splitlinesPy t2)
  String.mk (pyStrip (intercalateNl (collapseAux 0 (spaceAux false out))))

/-! ## Tag extractor, front matter builder, output path, page pipeline -/

/-- The body cut of `extract_tags`:
`re.split` at the first newline that is not immediately followed by a
property-line pattern (key characters then `::`), keeping the last piece.
Returns the text after that newline, or `none` when no such newline
exists. -/
def findBodyCut : List Char → Option (List Char)
  | [] => none
  | '\n' :: t =>
    let run := t.takeWhile isKeyChar
    if !run.isEmpty && "::".data.isPrefixOf (t.drop run.length) then
      findBodyCut t
    else some t
  | _ :: t => findBodyCut t

/-- `re.findall` of the tag-token pattern (marker `#`, not preceded by `#` or
a word character, followed by a word character and a run of tag
characters). -/
def findTagsAux : Nat → Option Char → List Char → List String
  | 0, _, _ => []
  | _ + 1, _, [] => []
  | fuel + 1, prev, c :: t =>
    let prevBlocks : Bool :=
      match prev with
      | some p => p == '#' || isWordChar p
      | none => false
    if c == '#' && !prevBlocks then
      match t with
      | d :: _ =>
        if isWordChar d then
          let tag := t.takeWhile isTagChar
          String.mk tag :: findTagsAux fuel tag.getLast? (t.drop tag.length)
        else findTagsAux fuel (some c) t
      | [] => []
    else findTagsAux fuel (some c) t

/-- Insertion into a sorted list of strings (for Python `sorted`). -/
def insertSorted (s : String) : List String → List String
  | [] => [s]
  | x :: xs => if s ≤ x then s :: x :: xs else x :: insertSorted s xs

def sortStrings (l : List String) : List String := l.foldr insertSorted []

/-- `extract_tags`: cut past the properties run, collect tag tokens from the
body, deduplicate and sort. -/
def extract_tags (text : String) : List String :=
  let body := (findBodyCut text.data).getD text.data
  sortStrings (findTagsAux body.length none body).dedup

/-- `Path(source_file).stem`: final path component without its suffix (the
suffix exists when the last dot is neither the first nor the last character
of the name). -/
def pathStem (srcFile : String) : String :=
  let name := (srcFile.data.reverse.takeWhile (fun c => !(c == '/'))).reverse
  match name.reverse.findIdx? (fun c => c == '.') with
  | some j =>
    let i := name.length - 1 - j
    if 0 < i ∧ i < name.length - 1 then String.mk (name.take i)
    else String.mk name
  | none => String.mk name

/-- The slug default `re.sub` of non-word non-hyphen characters by `-`. -/
def slugify (s : List Char) : List Char :=
  s.map (fun c => if isWordChar c || c == '-' then c else '-')

/-- Python truthiness of `theme_params.get(k)`: key present with a non-empty
value. -/
def tpTruthy (tp : List (String × String)) (k : String) : Bool :=
  match tp.lookup k with
  | some v => !(v == "")
  | none => false

/-- `build_front_matter`, as the list of emitted lines (the function's
result is these lines joined by newlines).  `today` stands for the module
constant `TODAY`. -/
def buildFrontMatterLines (props : List (String × String)) (srcFile : String)
    (tags : List String) (tp : List (String × String)) (today : String) :
    List String :=
  let title := dictGet props "title" (pathStem srcFile)
  let type_ := dictGet props "type" "page"
  let slug := dictGet props "slug" (String.mk (slugify (pyLower title.data)))
  let date := dictGet props "date" today
  let desc := dictGet props "description" ""
  let order := dictGet props "menu_order" ""
  let tk := dictGet props "translationkey" ""
  let toc : Bool :=
    ["true", "1", "yes"].contains (String.mk (pyLower (dictGet props "toc" "false").data))
  ["---", "title: \"" ++ title ++ "\"", "slug: \"" ++ slug ++ "\"",
   "type: \"" ++ type_ ++ "\"", "date: " ++ date] ++
  (if desc ≠ "" then ["description: \"" ++ desc ++ "\""] else []) ++
  (if order ≠ "" then ["weight: " ++ order] else []) ++
  (if tk ≠ "" then ["translationKey: \"" ++ tk ++ "\""] else []) ++
  (if toc && tpTruthy tp "toc" then [dictGet tp "toc" "" ++ ": true"] else []) ++
  (if toc && tpTruthy tp "toc_open" then [dictGet tp "toc_open" "" ++ ": true"]
   else []) ++
  (if tags ≠ [] then
    ["tags: [" ++ String.intercalate ", " (tags.map (fun t => "\"" ++ t ++ "\"")) ++ "]"]
   else []) ++
  ["---"]

def build_front_matter (props : List (String × String)) (srcFile : String)
    (tags : List String) (tp : List (String × String)) (today : String) :
    String :=
  String.intercalate "\n" (buildFrontMatterLines props srcFile tags tp today)

/-- Python `str.replace` of underscores by hyphens. -/
def pyReplaceUnderscore (s : List Char) : List Char :=
  s.map (fun c => if c == '_' then '-' else c)

/-- `DEFAULT_SECTIONS`: default Logseq type → Hugo section mapping. -/
def DEFAULT_SECTIONS : List (String × String) :=
  [("home", ""), ("cv", "cv"), ("post", "blog"), ("blog", "blog"),
   ("curious", "curious"), ("contact", "contact"), ("page", "")]

/-- `DEFAULT_INTERNAL_KEYS`: Logseq internal keys stripped by default. -/
def DEFAULT_INTERNAL_KEYS : List String :=
  ["collapsed", "id", "background-color", "heading", "card-last-reviewed",
   "card-next-schedule", "card-last-score", "card-ease-factor",
   "card-repeats", "card-last-interval", "logseq.order-list-type"]

/-- `output_path`: resolve the destination path (modelled as its component
list) inside `content/lang/section/`. -/
def output_path (props : List (String × String)) (outputDir : List String)
    (smap : List (String × String)) : List String :=
  let lang :=
    String.mk (pyReplaceUnderscore (pyLower (dictGet props "lang" "fr").data))
  let type_ := dictGet props "type" "page"
  let slug := dictGet props "slug" "page"
  let sect := dictGet smap type_ type_
  let dir := outputDir ++ [lang] ++ (if sect ≠ "" then [sect] else [])
  let filename :=
    if type_ == "post" || type_ == "blog" then slug ++ ".md" else "_index.md"
  dir ++ [filename]

/-- `process_file`: the page pipeline.  Returns `none` when the page is
skipped (no `public:: true`), otherwise the resolved output path and the
written content (front matter, one blank line, converted body); the write
itself is the only effect and happens exactly when the result is `some`. -/
def process_file (text srcPath : String) (outputDir : List String)
    (smap : List (String × String)) (ik : List String)
    (tp : List (String × String)) (today : String) :
    Option (List String × String) :=
  let props := parse_logseq_properties text
  if String.mk (pyLower (dictGet props "public" "false").data) ≠ "true" then
    none
  else
    let lang := String.mk (pyLower (dictGet props "lang" "fr").data)
    let tags := extract_tags text
    let fm := build_front_matter props srcPath tags tp today
    let body := convert_content text ik lang
    some (output_path props outputDir smap, fm ++ "\n\n" ++ body)

/-- C2 (counterexample): `parse_logseq_properties` does not stop at a bullet
line.  In the page `"a:: 1\n- x\nb:: 2"` the line `"- x"` is non-blank and is
not a property line, yet the property line `"b:: 2"` after it is still
recorded, contradicting the claim that no `key:: value` line occurring after
the first non-blank non-property line is ever recorded. -/
theorem parser_scans_past_bullets :
    pyStrip "- x".data ≠ [] ∧ propKeyMatch (pyStrip "- x".data) = none ∧
      (parse_logseq_properties "a:: 1\n- x\nb:: 2").lookup "b" = some "2" := by
  refine ⟨by decide, by decide, by decide⟩

/-- C2 (amended): scanning stops at the first non-blank line that neither
matches the property pattern nor starts with `-` (a bullet line does not stop
the scan); once stopped it never resumes; every property line occurring
before that stopping line — including ones that follow intervening bullet
lines — is recorded.  Formally, the parse of a page equals the no-stop
recording pass applied to the longest prefix of its lines free of stopping
lines. -/
theorem parser_stop_characterization (text : String) :
    parse_logseq_properties text =
      recordAll ((splitlinesPy text.data).takeWhile (fun l => !(parserStops l)))
        [] :=
  parsePropsAux_eq_recordAll _ _

/-! ## Boundary comparison between the parser and the converter (C3) -/

/-- A line the converter drops while in the properties state: blank, or
matching the converter's stricter property pattern. -/
def convDropsLine (l : List Char) : Bool :=
  isConvPropLine (pyStrip l) || (pyStrip l).isEmpty

theorem convAux_false_eq_filterMap (ik : List String) (lang : List Char)
    (ls : List (List Char)) :
    convAux ik lang false ls = ls.filterMap (processBody ik lang) := by
  induction ls with
  | nil => rfl
  | cons l ls ih =>
    cases h : processBody ik lang l with
    | some out => simp [convAux, h, ih]
    | none => simp [convAux, h, ih]

theorem convAux_true_eq_dropWhile (ik : List String) (lang : List Char)
    (ls : List (List Char)) :
    convAux ik lang true ls =
      (ls.dropWhile convDropsLine).filterMap (processBody ik lang) := by
  induction ls with
  | nil => rfl
  | cons l ls ih =>
    by_cases h : convDropsLine l = true
    · have hc : (isConvPropLine (pyStrip l) || (pyStrip l).isEmpty) = true := h
      simp [convAux, List.dropWhile_cons, h, hc, ih]
    · have hc : (isConvPropLine (pyStrip l) || (pyStrip l).isEmpty) = false :=
        Bool.not_eq_true _ ▸ Bool.of_not_eq_true h
      rw [List.dropWhile_cons]
      simp only [h, if_false, Bool.false_eq_true]
      cases hb : processBody ik lang l with
      | some out => simp [convAux, hc, hb, convAux_false_eq_filterMap]
      | none => simp [convAux, hc, hb, convAux_false_eq_filterMap]

theorem isConvPropLine_isSome (s : List Char) (h : isConvPropLine s = true) :
    (propKeyMatch s).isSome = true := by
  cases s with
  | nil => simp [isConvPropLine] at h
  | cons c rest =>
    simp only [isConvPropLine, Bool.and_eq_true] at h
    obtain ⟨hw, hm⟩ := h
    simp only [propKeyMatch, hw, if_true]
    split at hm
    · rename_i d tail heq
      rw [heq]
      rfl
    · exact absurd hm (by simp)

theorem convDrops_not_stops (l : List Char) (h : convDropsLine l = true) :
    (!(parserStops l)) = true := by
  simp only [convDropsLine, Bool.or_eq_true] at h
  rcases h with h | h
  · have hs := isConvPropLine_isSome _ h
    simp [parserStops, Option.isNone, Option.isSome] at hs ⊢
    cases he : propKeyMatch (pyStrip l) with
    | some kv => simp
    | none => rw [he] at hs; simp at hs
  · have he : pyStrip l = [] := by simpa using h
    simp [parserStops, he]

theorem takeWhile_prefix_mono {α : Type} (p q : α → Bool)
    (h : ∀ a, p a = true → q a = true) (l : List α) :
    l.takeWhile p <+: l.takeWhile q := by
  induction l with
  | nil => simp
  | cons a l ih =>
    by_cases hp : p a = true
    · obtain ⟨t, ht⟩ := ih
      exact ⟨t, by simp [List.takeWhile_cons, hp, h a hp, ht]⟩
    · have hp' : p a = false := Bool.not_eq_true _ ▸ Bool.of_not_eq_true hp
      simp [List.takeWhile_cons, hp']

/-- C3 (counterexample): the converter's properties boundary differs from
the parser's.  On the one-line page `"a::b"` (no whitespace after `::`) the
Property Parser records the property `a`, yet the line fails the converter's
in-properties pattern and is emitted verbatim into the converted body —
a line treated as a property line by `parse_logseq_properties` ends up in
the converter's output. -/
theorem converter_parser_boundary_mismatch :
    (parse_logseq_properties "a::b").lookup "a" = some "b" ∧
    isConvPropLine (pyStrip "a::b".data) = false ∧
    convert_content "a::b" [] "fr" = "a::b" := by
  refine ⟨by decide, by decide, by decide⟩

/-- C3 (amended): the coincidence only holds in one direction.  The
converter drops exactly the longest leading run of lines that are blank or
match its stricter property pattern (whitespace required after `::`); every
such non-blank dropped line is also recorded as a property by the parser,
and the dropped run is a prefix of the run the parser scans.  The converse
fails (see the counterexample): the parser may record property lines that
the converter emits — ones without whitespace after `::`, or ones following
an intervening bullet line. -/
theorem converter_skip_subset_scan :
    (∀ (ik : List String) (lang : List Char) (ls : List (List Char)),
      convAux ik lang true ls =
        (ls.dropWhile convDropsLine).filterMap (processBody ik lang)) ∧
    (∀ l : List Char, convDropsLine l = true →
      pyStrip l = [] ∨ (propKeyMatch (pyStrip l)).isSome = true) ∧
    (∀ ls : List (List Char),
      ls.takeWhile convDropsLine <+: ls.takeWhile (fun l => !(parserStops l))) := by
  refine ⟨convAux_true_eq_dropWhile, fun l h => ?_, fun ls => ?_⟩
  · simp only [convDropsLine, Bool.or_eq_true] at h
    rcases h with h | h
    · exact Or.inr (isConvPropLine_isSome _ h)
    · exact Or.inl (by simpa using h)
  · exact takeWhile_prefix_mono _ _ convDrops_not_stops ls

theorem converter_skip_subset_scan_witness :
    convAux [] "fr".data true ["a:: 1".data, "x".data, "b:: 2".data] =
      (["a:: 1".data, "x".data, "b:: 2".data].dropWhile convDropsLine).filterMap
        (processBody [] "fr".data) ∧
    (pyStrip "t:: v".data = [] ∨ (propKeyMatch (pyStrip "t:: v".data)).isSome = true) := by
  refine ⟨converter_skip_subset_scan.1 [] "fr".data _,
    converter_skip_subset_scan.2.1 "t:: v".data (by decide)⟩

/-! ## Post-processing lemmas (C5) -/

/-- Adjacency discipline produced by the media-spacing pass: a media line
only ever sits next to blank lines. -/
def mediaSpaced (a b : List Char) : Prop :=
  (isMediaLine a = true → pyStrip b = []) ∧
    (isMediaLine b = true → pyStrip a = [])

theorem spaceAux_true_head (ls : List (List Char)) (x : List Char)
    (hx : (spaceAux true ls).head? = some x) : isMediaLine x = false := by
  cases ls with
  | nil => simp [spaceAux] at hx
  | cons l ls =>
    by_cases hm : isMediaLine l = true
    · rw [spaceAux] at hx
      simp only [hm, if_true] at hx
      simp at hx
      subst hx
      rfl
    · have hm' : isMediaLine l = false := Bool.not_eq_true _ ▸ Bool.of_not_eq_true hm
      rw [spaceAux] at hx
      simp only [hm', Bool.false_eq_true, if_false] at hx
      simp at hx
      subst hx
      exact hm'

theorem spaceAux_chain (ls : List (List Char)) :
    ∀ p : Bool, List.Chain' mediaSpaced (spaceAux p ls) := by
  induction ls with
  | nil => intro p; simp [spaceAux]
  | cons l ls ih =>
    intro p
    by_cases hm : isMediaLine l = true
    · rw [spaceAux]
      simp only [hm, if_true]
      have htail : List.Chain' mediaSpaced (l :: [] :: spaceAux false ls) := by
        rw [List.chain'_cons]
        refine ⟨⟨fun _ => rfl, fun hc => absurd hc (by decide)⟩, ?_⟩
        rw [List.chain'_cons']
        exact ⟨fun y _ => ⟨fun hc => absurd hc (by decide), fun _ => rfl⟩, ih false⟩
      cases p
      · simpa using htail
      · rw [if_pos rfl, List.singleton_append, List.chain'_cons]
        exact ⟨⟨fun hc => absurd hc (by decide), fun _ => rfl⟩, htail⟩
    · have hm' : isMediaLine l = false := Bool.not_eq_true _ ▸ Bool.of_not_eq_true hm
      rw [spaceAux]
      simp only [hm', Bool.false_eq_true, if_false]
      rw [List.chain'_cons']
      refine ⟨fun y hy => ⟨fun hc => absurd hc (by simp [hm']), fun hmy => ?_⟩, ih _⟩
      by_cases hl : (pyStrip l).isEmpty = true
      · simpa using hl
      · have hq : (!(pyStrip l).isEmpty) = true := by
          simp [Bool.of_not_eq_true hl]
        rw [hq] at hy
        exact absurd hmy (by simp [spaceAux_true_head ls y (Option.mem_def.mp hy)])

theorem spaceAux_getLast_not_media (ls : List (List Char)) :
    ∀ (p : Bool) (x : List Char),
      (spaceAux p ls).getLast? = some x → isMediaLine x = false := by
  induction ls with
  | nil => intro p x hx; simp [spaceAux] at hx
  | cons l ls ih =>
    intro p x hx
    by_cases hm : isMediaLine l = true
    · rw [spaceAux] at hx
      simp only [hm, if_true] at hx
      have h1 : ((if p then [[]] else []) ++ l :: [] :: spaceAux false ls).getLast? =
          ([] :: spaceAux false ls).getLast? := by
        rw [List.getLast?_append_cons, List.getLast?_cons_cons]
      rw [h1] at hx
      cases hS : spaceAux false ls with
      | nil =>
        rw [hS] at hx
        simp at hx
        subst hx
        rfl
      | cons s ss =>
        rw [hS, List.getLast?_cons_cons] at hx
        exact ih false x (by rw [hS]; exact hx)
    · have hm' : isMediaLine l = false := Bool.not_eq_true _ ▸ Bool.of_not_eq_true hm
      rw [spaceAux] at hx
      simp only [hm', Bool.false_eq_true, if_false] at hx
      cases hS : spaceAux (!(pyStrip l).isEmpty) ls with
      | nil =>
        rw [hS] at hx
        simp at hx
        subst hx
        exact hm'
      | cons s ss =>
        rw [hS, List.getLast?_cons_cons] at hx
        exact ih _ x (by rw [hS]; exact hx)

/-- The blank-run counter state after a list of lines. -/
def blankRun : Nat → List (List Char) → Nat
  | k, [] => k
  | k, l :: ls => blankRun (if (pyStrip l).isEmpty then k + 1 else 0) ls

theorem collapseAux_append (xs : List (List Char)) :
    ∀ (k : Nat) (ys : List (List Char)),
      collapseAux k (xs ++ ys) =
        collapseAux k xs ++ collapseAux (blankRun k xs) ys := by
  induction xs with
  | nil => intro k ys; rfl
  | cons l xs ih =>
    intro k ys
    by_cases hb : (pyStrip l).isEmpty = true
    · by_cases hk : k + 1 ≤ 2
      · simp [collapseAux, blankRun, hb, hk, ih]
      · simp [collapseAux, blankRun, hb, hk, ih]
    · simp [collapseAux, blankRun, hb, Bool.of_not_eq_true hb, ih]

theorem blankRun_getLast_nonblank (xs : List (List Char)) :
    ∀ (x : List Char), xs.getLast? = some x → (pyStrip x).isEmpty = false →
      ∀ k, blankRun k xs = 0 := by
  induction xs with
  | nil => intro x hx; simp at hx
  | cons l xs ih =>
    intro x hx hnb k
    cases hX : xs with
    | nil =>
      rw [hX] at hx
      simp at hx
      rw [← hx] at hnb
      simp [blankRun, hnb, hX]
    | cons y ys =>
      rw [hX] at hx ih
      rw [List.getLast?_cons_cons] at hx
      rw [blankRun]
      exact ih x hx hnb _

theorem collapseAux_all_blank (bs : List (List Char))
    (hb : ∀ b ∈ bs, (pyStrip b).isEmpty = true) :
    ∀ k, collapseAux k bs = bs.take (2 - k) := by
  induction bs with
  | nil => intro k; simp [collapseAux]
  | cons b bs ih =>
    intro k
    have hbb : (pyStrip b).isEmpty = true := hb b (by simp)
    have ih' := ih (fun x hx => hb x (by simp [hx]))
    rcases k with _ | _ | k
    · simp [collapseAux, hbb, ih' 1]
    · simp [collapseAux, hbb, ih' 2]
    · have : ¬(k + 2 + 1 ≤ 2) := by omega
      have h2 : 2 - (k + 2) = 0 := by omega
      simp [collapseAux, hbb, this, ih' (k + 3), h2]

theorem blankRun_all_blank (bs : List (List Char))
    (hb : ∀ b ∈ bs, (pyStrip b).isEmpty = true) :
    ∀ k, blankRun k bs = k + bs.length := by
  induction bs with
  | nil => intro k; simp [blankRun]
  | cons b bs ih =>
    intro k
    have hbb : (pyStrip b).isEmpty = true := hb b (by simp)
    have := ih (fun x hx => hb x (by simp [hx])) (k + 1)
    simp [blankRun, hbb, this]
    omega

theorem collapseAux_reset (post : List (List Char)) (k : Nat)
    (hpost : post = [] ∨ ∃ y, post.head? = some y ∧ (pyStrip y).isEmpty = false) :
    collapseAux k post = collapseAux 0 post := by
  rcases hpost with rfl | ⟨y, hy, hnb⟩
  · rfl
  · cases post with
    | nil => rfl
    | cons z t =>
      simp at hy
      rw [← hy] at hnb
      simp [collapseAux, hnb]

theorem head?_dropWhile_not {α : Type} (p : α → Bool) (l : List α) :
    ∀ x, (l.dropWhile p).head? = some x → p x = false := by
  induction l with
  | nil => intro x hx; simp at hx
  | cons a t ih =>
    intro x hx
    by_cases hp : p a = true
    · rw [List.dropWhile_cons, if_pos hp] at hx
      exact ih x hx
    · have hp' : p a = false := Bool.not_eq_true _ ▸ Bool.of_not_eq_true hp
      rw [List.dropWhile_cons, if_neg (by simp [hp'])] at hx
      simp at hx
      rw [← hx]
      exact hp'

theorem getLast?_dropWhile {α : Type} (p : α → Bool) (l : List α)
    (h : l.dropWhile p ≠ []) : (l.dropWhile p).getLast? = l.getLast? := by
  induction l with
  | nil => simp at h
  | cons a t ih =>
    by_cases hp : p a = true
    · rw [List.dropWhile_cons, if_pos hp] at h ⊢
      rw [ih h]
      cases hT : t with
      | nil => rw [hT] at h; simp at h
      | cons b bs => rw [List.getLast?_cons_cons]
    · rw [List.dropWhile_cons, if_neg (by simp [Bool.of_not_eq_true hp])]

theorem pyStrip_head (l : List Char) :
    ∀ c, (pyStrip l).head? = some c → isPyWS c = false := by
  intro c hc
  rw [pyStrip, List.head?_reverse] at hc
  have hne : (l.dropWhile isPyWS).reverse.dropWhile isPyWS ≠ [] := by
    intro he
    rw [he] at hc
    simp at hc
  rw [getLast?_dropWhile _ _ hne, List.getLast?_reverse] at hc
  exact head?_dropWhile_not _ _ c hc

theorem pyStrip_getLast (l : List Char) :
    ∀ c, (pyStrip l).getLast? = some c → isPyWS c = false := by
  intro c hc
  rw [pyStrip, List.getLast?_reverse] at hc
  exact head?_dropWhile_not _ _ c hc

/-! ## Fixpoint lemmas for re-running the converter (C8) -/

theorem splitNl_ne_nil (l : List Char) : splitNl l ≠ [] := by
  cases l with
  | nil => simp [splitNl]
  | cons c t =>
    rw [splitNl]
    by_cases hc : c = '\n'
    · simp [hc]
    · simp only [hc, if_false]
      cases splitNl t <;> simp

theorem intercalateNl_splitNl (l : List Char) :
    intercalateNl (splitNl l) = l := by
  induction l with
  | nil => rfl
  | cons c t ih =>
    rw [splitNl]
    by_cases hc : c = '\n'
    · subst hc
      simp only [if_pos rfl]
      obtain ⟨h, r, hr⟩ : ∃ h r, splitNl t = h :: r := by
        cases hS : splitNl t with
        | nil => exact absurd hS (splitNl_ne_nil t)
        | cons h r => exact ⟨h, r, rfl⟩
      rw [hr]
      rw [hr] at ih
      show ([] : List Char) ++ '\n' :: intercalateNl (h :: r) = '\n' :: t
      rw [List.nil_append, ih]
    · simp only [hc, if_false]
      obtain ⟨h, r, hr⟩ : ∃ h r, splitNl t = h :: r := by
        cases hS : splitNl t with
        | nil => exact absurd hS (splitNl_ne_nil t)
        | cons h r => exact ⟨h, r, rfl⟩
      rw [hr]
      rw [hr] at ih
      cases r with
      | nil =>
        show c :: h = c :: t
        rw [show intercalateNl [h] = h from rfl] at ih
        rw [ih]
      | cons r0 rr =>
        show (c :: h) ++ '\n' :: intercalateNl (r0 :: rr) = c :: t
        rw [show intercalateNl (h :: r0 :: rr) =
            h ++ '\n' :: intercalateNl (r0 :: rr) from rfl] at ih
        rw [List.cons_append, ih]

theorem splitNl_getLast_ne (l : List Char) (hne : l ≠ [])
    (hl : l.getLast? ≠ some '\n') : (splitNl l).getLast? ≠ some [] := by
  induction l with
  | nil => exact absurd rfl hne
  | cons c t ih =>
    cases t with
    | nil =>
      by_cases hc : c = '\n'
      · exact absurd (by rw [hc]; rfl) hl
      · rw [splitNl, if_neg hc]
        show ([[c]] : List (List Char)).getLast? ≠ some []
        simp
    | cons d t2 =>
      have hl2 : (d :: t2).getLast? ≠ some '\n' := by
        rw [List.getLast?_cons_cons] at hl
        exact hl
      have ih2 := ih (by simp) hl2
      obtain ⟨h, r, hr⟩ : ∃ h r, splitNl (d :: t2) = h :: r := by
        cases hS : splitNl (d :: t2) with
        | nil => exact absurd hS (splitNl_ne_nil _)
        | cons h r => exact ⟨h, r, rfl⟩
      rw [hr] at ih2
      rw [splitNl]
      by_cases hc : c = '\n'
      · rw [if_pos hc, hr, List.getLast?_cons_cons]
        exact ih2
      · rw [if_neg hc, hr]
        show ((c :: h) :: r).getLast? ≠ some []
        cases r with
        | nil =>
          intro hx
          simp at hx
        | cons r0 rr =>
          rw [List.getLast?_cons_cons]
          rw [List.getLast?_cons_cons] at ih2
          exact ih2

theorem splitlinesPy_of_getLast (l : List Char) (hne : l ≠ [])
    (hl : l.getLast? ≠ some '\n') : splitlinesPy l = splitNl l := by
  rw [splitlinesPy, if_neg hne]
  simp only [splitNl_getLast_ne l hne hl, if_false]

theorem splitNl_cons_shape (c : Char) (t : List Char) (hc : c ≠ '\n') :
    ∃ h r, splitNl (c :: t) = (c :: h) :: r := by
  rw [splitNl]
  simp only [hc, if_false]
  cases hS : splitNl t with
  | nil => exact absurd hS (splitNl_ne_nil t)
  | cons h r => exact ⟨h, r, rfl⟩

theorem pyStrip_ne_nil_of_head (c : Char) (t : List Char)
    (hc : isPyWS c = false) : pyStrip (c :: t) ≠ [] := by
  intro h
  rw [pyStrip] at h
  have h2 : (c :: t).dropWhile isPyWS = c :: t := by
    rw [List.dropWhile_cons, if_neg (by simp [hc])]
  rw [h2] at h
  have h3 : (c :: t).reverse.dropWhile isPyWS = [] := by
    have := congrArg List.reverse h
    simpa using this
  rw [List.dropWhile_eq_nil_iff] at h3
  have := h3 c (by simp)
  rw [hc] at this
  exact Bool.false_ne_true this

theorem pyStrip_eq_self (l : List Char)
    (hh : l.head?.all (fun c => !(isPyWS c)) = true)
    (hl : l.getLast?.all (fun c => !(isPyWS c)) = true) : pyStrip l = l := by
  cases l with
  | nil => rfl
  | cons c t =>
    have hc : isPyWS c = false := by simpa using hh
    have h2 : (c :: t).dropWhile isPyWS = c :: t := by
      rw [List.dropWhile_cons, if_neg (by simp [hc])]
    rw [pyStrip, h2]
    obtain ⟨x, hx⟩ : ∃ x, (c :: t).getLast? = some x := by
      cases hL : (c :: t).getLast? with
      | none => simp at hL
      | some x => exact ⟨x, rfl⟩
    have hxw : isPyWS x = false := by
      rw [hx] at hl
      simpa using hl
    obtain ⟨h, r, hr⟩ : ∃ h r, (c :: t).reverse = h :: r := by
      cases hR : (c :: t).reverse with
      | nil => simpa using congrArg List.length hR
      | cons h r => exact ⟨h, r, rfl⟩
    have hhead : h = x := by
      have := List.head?_reverse (c :: t)
      rw [hr, hx] at this
      simpa using this
    have hhw : isPyWS h = false := by rw [hhead]; exact hxw
    rw [hr, List.dropWhile_cons, if_neg (by simp [hhw]), ← hr,
      List.reverse_reverse]

theorem processBody_id (ik : List String) (lang l : List Char)
    (h2 : collapsedMatch l = false) (h3 : idMatch l = false)
    (h4 : emptyBulletMatch l = false) (h5 : bulletMatch l = none)
    (h7 : apply_inline_conversions lang l = l) :
    processBody ik lang l = some l := by
  simp [processBody, h2, h3, h4, h5, h7]

theorem convAux_id (ik : List String) (lang : List Char)
    (ls : List (List Char))
    (hall : ∀ l ∈ ls, processBody ik lang l = some l) :
    convAux ik lang false ls = ls := by
  induction ls with
  | nil => rfl
  | cons l ls ih =>
    have h := hall l (by simp)
    simp [convAux, h, ih (fun x hx => hall x (by simp [hx]))]

theorem spaceAux_id (ls : List (List Char))
    (h : ∀ l ∈ ls, isMediaLine l = false) : ∀ p, spaceAux p ls = ls := by
  induction ls with
  | nil => intro p; rfl
  | cons l ls ih =>
    intro p
    have hl := h l (by simp)
    rw [spaceAux]
    simp only [hl, Bool.false_eq_true, if_false]
    rw [ih (fun x hx => h x (by simp [hx]))]

/-- No three consecutive blank lines occur in the list. -/
def noTripleBlank : List (List Char) → Bool
  | a :: b :: c :: t =>
    (!((pyStrip a).isEmpty && (pyStrip b).isEmpty && (pyStrip c).isEmpty)) &&
      noTripleBlank (b :: c :: t)
  | _ => true

theorem noTripleBlank_tail (l : List Char) (ls : List (List Char))
    (h : noTripleBlank (l :: ls) = true) : noTripleBlank ls = true := by
  cases ls with
  | nil => rfl
  | cons b t =>
    cases t with
    | nil => rfl
    | cons c t2 =>
      simp only [noTripleBlank, Bool.and_eq_true] at h
      exact h.2

theorem leadBlanks_le_two (ls : List (List Char))
    (h : noTripleBlank ls = true) :
    (ls.takeWhile (fun l => (pyStrip l).isEmpty)).length ≤ 2 := by
  rcases ls with _ | ⟨a, _ | ⟨b, _ | ⟨c, t⟩⟩⟩
  · simp
  · simp [List.takeWhile_cons]
    split <;> simp
  · simp only [List.takeWhile_cons]
    split
    · split <;> simp
    · simp
  · by_cases ha : (pyStrip a).isEmpty = true
    · by_cases hb : (pyStrip b).isEmpty = true
      · by_cases hc : (pyStrip c).isEmpty = true
        · exfalso
          simp only [noTripleBlank, Bool.and_eq_true] at h
          have h1 := h.1
          rw [ha, hb, hc] at h1
          simp at h1
        · simp [List.takeWhile_cons, ha, hb, hc, Bool.of_not_eq_true hc]
      · simp [List.takeWhile_cons, ha, Bool.of_not_eq_true hb]
    · simp [List.takeWhile_cons, Bool.of_not_eq_true ha]

theorem collapseAux_id (ls : List (List Char))
    (h : noTripleBlank ls = true) :
    ∀ k, k + (ls.takeWhile (fun l => (pyStrip l).isEmpty)).length ≤ 2 →
      collapseAux k ls = ls := by
  induction ls with
  | nil => intro k _; rfl
  | cons l ls ih =>
    intro k hk
    by_cases hb : (pyStrip l).isEmpty = true
    · rw [List.takeWhile_cons, if_pos hb] at hk
      simp only [List.length_cons] at hk
      have hk1 : k + 1 ≤ 2 := by omega
      rw [collapseAux]
      simp only [hb, if_true, hk1, if_pos]
      rw [ih (noTripleBlank_tail l ls h) (k + 1) (by omega)]
    · rw [collapseAux]
      simp only [hb, Bool.false_eq_true, if_false]
      rw [ih (noTripleBlank_tail l ls h) 0
        (by simpa using leadBlanks_le_two ls (noTripleBlank_tail l ls h))]

theorem convAux_true_id (ik : List String) (lang : List Char) (l0 : List Char)
    (r : List (List Char))
    (h0 : (isConvPropLine (pyStrip l0) || (pyStrip l0).isEmpty) = false)
    (hall : ∀ l ∈ l0 :: r, processBody ik lang l = some l) :
    convAux ik lang true (l0 :: r) = l0 :: r := by
  rw [convAux]
  simp only [Bool.true_and, h0, Bool.false_eq_true, if_false]
  rw [hall l0 (by simp)]
  show l0 :: convAux ik lang false r = l0 :: r
  rw [convAux_id ik lang r (fun x hx => hall x (by simp [hx]))]

/-- C8 (counterexample): idempotence fails even under the claim's proviso.
The page consisting of the single depth-1 bullet line `"\t- x"` converts to
`"- x"`; no Inline Rewriter rule matches that output (the inline pass leaves
it unchanged), yet re-running the converter on it unpacks it as a depth-0
bullet and yields `"x"`, not `"- x"`. -/
theorem converter_not_idempotent :
    convert_content "\t- x" [] "fr" = "- x" ∧
    apply_inline_conversions "fr".data "- x".data = "- x".data ∧
    convert_content "- x" [] "fr" = "x" ∧ ("- x" : String) ≠ "x" := by
  refine ⟨by decide, by decide, by decide, by decide⟩

/-- C8 (amended): re-running the Outline Converter is a no-op on any text
that is already in fully converted form, in the following stronger sense
forced by the counterexample: the admonition and video passes leave the text
unchanged; it neither starts nor ends with whitespace; no line is a
property-pattern line, a `collapsed::`/`id::` marker, an empty bullet, a
bullet-pattern line (converted output can contain such lines, e.g. `"- x"`
from a depth-1 bullet, and they would be rewritten again), or a raw
`<img`/`<video` line; the Inline Rewriter leaves every line unchanged; and
no three consecutive lines are blank. -/
theorem converter_idempotent_on_converted_form (S : String) (ik : List String)
    (lang : String)
    (hadm : admonSub S.data = S.data)
    (hvid : videoSub S.data = S.data)
    (hhead : S.data.head?.all (fun c => !(isPyWS c)) = true)
    (hlast : S.data.getLast?.all (fun c => !(isPyWS c)) = true)
    (hline : ∀ l ∈ splitlinesPy S.data,
      isConvPropLine (pyStrip l) = false ∧ collapsedMatch l = false ∧
      idMatch l = false ∧ emptyBulletMatch l = false ∧ bulletMatch l = none ∧
      isMediaLine l = false ∧ apply_inline_conversions lang.data l = l)
    (hblank : noTripleBlank (splitlinesPy S.data) = true) :
    convert_content S ik lang = S := by
  obtain ⟨sd⟩ := S
  cases sd with
  | nil => rfl
  | cons c0 rest =>
    have hadm' : admonSub (c0 :: rest) = c0 :: rest := hadm
    have hvid' : videoSub (c0 :: rest) = c0 :: rest := hvid
    have hhead' : (c0 :: rest).head?.all (fun c => !(isPyWS c)) = true := hhead
    have hlast' : (c0 :: rest).getLast?.all (fun c => !(isPyWS c)) = true := hlast
    have hline' : ∀ l ∈ splitlinesPy (c0 :: rest),
        isConvPropLine (pyStrip l) = false ∧ collapsedMatch l = false ∧
        idMatch l = false ∧ emptyBulletMatch l = false ∧ bulletMatch l = none ∧
        isMediaLine l = false ∧ apply_inline_conversions lang.data l = l := hline
    have hblank' : noTripleBlank (splitlinesPy (c0 :: rest)) = true := hblank
    have hc0 : isPyWS c0 = false := by simpa using hhead'
    have hnl : c0 ≠ '\n' := fun he => absurd (he ▸ hc0) (by decide)
    have hlastnl : (c0 :: rest).getLast? ≠ some '\n' := by
      intro he
      rw [he] at hlast'
      exact absurd hlast' (by decide)
    have hsp : splitlinesPy (c0 :: rest) = splitNl (c0 :: rest) :=
      splitlinesPy_of_getLast _ (by simp) hlastnl
    obtain ⟨h0, r0, hr0⟩ := splitNl_cons_shape c0 rest hnl
    have hls : splitlinesPy (c0 :: rest) = (c0 :: h0) :: r0 := by
      rw [hsp, hr0]
    rw [hls] at hline' hblank'
    have hproc : ∀ l ∈ (c0 :: h0) :: r0, processBody ik lang.data l = some l := by
      intro l hl
      obtain ⟨_, h2, h3, h4, h5, _, h7⟩ := hline' l hl
      exact processBody_id ik lang.data l h2 h3 h4 h5 h7
    have hmedia : ∀ l ∈ (c0 :: h0) :: r0, isMediaLine l = false :=
      fun l hl => (hline' l hl).2.2.2.2.2.1
    have hie : (pyStrip (c0 :: h0)).isEmpty = false := by
      cases hP : pyStrip (c0 :: h0) with
      | nil => exact absurd hP (pyStrip_ne_nil_of_head c0 h0 hc0)
      | cons a b => rfl
    have h0cond : (isConvPropLine (pyStrip (c0 :: h0)) ||
        (pyStrip (c0 :: h0)).isEmpty) = false := by
      rw [(hline' (c0 :: h0) (by simp)).1, hie]
      rfl
    show String.mk (pyStrip (intercalateNl (collapseAux 0 (spaceAux false
      (convAux ik lang.data true
        (splitlinesPy (videoSub (admonSub (c0 :: rest))))))))) =
      String.mk (c0 :: rest)
    rw [hadm', hvid', hls, convAux_true_id ik lang.data _ _ h0cond hproc,
      spaceAux_id _ hmedia false,
      collapseAux_id _ hblank' 0 (by simpa using leadBlanks_le_two _ hblank'),
      ← hr0, intercalateNl_splitNl, pyStrip_eq_self _ hhead' hlast']

theorem converter_idempotent_on_converted_form_witness :
    convert_content "hello\nworld" [] "fr" = "hello\nworld" :=
  converter_idempotent_on_converted_form "hello\nworld" [] "fr" (by decide)
    (by decide) (by decide) (by decide) (by decide) (by decide)

/-- C5: the converter's post-processing.  (a) In the media-spacing pass's
output, a raw img/video line is always followed by a blank line and, when
any line precedes it, the preceding line is blank (blank insertion happens
exactly when the previously emitted line is non-blank): the output is a
chain under `mediaSpaced` and never ends in a media line.  (b) A run of
three or more blank lines flanked by non-blank boundaries (or the sequence
ends) is collapsed to exactly its first two lines — so five consecutive
body blank lines yield exactly two.  (c) The final converted text is
stripped, so its first and last characters are non-whitespace and leading
and trailing blank lines are trimmed away. -/
theorem postprocess_spacing_collapse_trim :
    (∀ out : List (List Char),
      List.Chain' mediaSpaced (spaceAux false out) ∧
      ∀ x, (spaceAux false out).getLast? = some x → isMediaLine x = false) ∧
    (∀ pre bs post : List (List Char),
      (pre = [] ∨ ∃ x, pre.getLast? = some x ∧ (pyStrip x).isEmpty = false) →
      (∀ b ∈ bs, (pyStrip b).isEmpty = true) → 3 ≤ bs.length →
      (post = [] ∨ ∃ y, post.head? = some y ∧ (pyStrip y).isEmpty = false) →
      collapseAux 0 (pre ++ bs ++ post) =
        collapseAux 0 pre ++ bs.take 2 ++ collapseAux 0 post) ∧
    (∀ (text : String) (ik : List String) (lang : String),
      (∀ c, (convert_content text ik lang).data.head? = some c →
        isPyWS c = false) ∧
      (∀ c, (convert_content text ik lang).data.getLast? = some c →
        isPyWS c = false)) := by
  refine ⟨fun out => ⟨spaceAux_chain out false,
    spaceAux_getLast_not_media out false⟩, ?_, ?_⟩
  · intro pre bs post hpre hbs _hlen hpost
    have hrun0 : blankRun 0 pre = 0 := by
      rcases hpre with rfl | ⟨x, hx, hnb⟩
      · rfl
      · exact blankRun_getLast_nonblank pre x hx hnb 0
    rw [List.append_assoc, collapseAux_append, hrun0, collapseAux_append,
      collapseAux_all_blank bs hbs 0, blankRun_all_blank bs hbs 0,
      collapseAux_reset post (0 + bs.length) hpost]
    simp [List.append_assoc]
  · intro text ik lang
    exact ⟨fun c hc => pyStrip_head _ c hc, fun c hc => pyStrip_getLast _ c hc⟩

theorem postprocess_spacing_collapse_trim_witness :
    collapseAux 0 (["a".data] ++ [[], [], [], [], []] ++ ["b".data]) =
      collapseAux 0 ["a".data] ++ [[], [], [], [], []].take 2 ++
        collapseAux 0 ["b".data] ∧
    List.Chain' mediaSpaced (spaceAux false ["x".data, "<img a>".data]) ∧
    isPyWS 'x' = false := by
  refine ⟨postprocess_spacing_collapse_trim.2.1 ["a".data]
      [[], [], [], [], []] ["b".data]
      (Or.inr ⟨"a".data, by decide, by decide⟩) (by decide) (by decide)
      (Or.inr ⟨"b".data, by decide, by decide⟩),
    (postprocess_spacing_collapse_trim.1 ["x".data, "<img a>".data]).1,
    (postprocess_spacing_collapse_trim.2.2 "x\n\n\n\n\n\ny" [] "fr").1 'x'
      (by decide)⟩

/-- C1: an output file is written (the pipeline returns `some`) if and only
if the parsed PropertyBlock's `public` value (defaulting to `"false"` when
the key is absent) equals `"true"` after lowercasing; in particular a page
whose properties lack the `public` key is skipped (returns `none`, which the
caller reports as skipped rather than as an error). -/
theorem public_filter_iff (text srcPath : String) (outputDir : List String)
    (smap : List (String × String)) (ik : List String)
    (tp : List (String × String)) (today : String) :
    ((process_file text srcPath outputDir smap ik tp today).isSome ↔
      String.mk (pyLower (dictGet (parse_logseq_properties text) "public" "false").data) =
        "true") ∧
    ((parse_logseq_properties text).lookup "public" = none →
      process_file text srcPath outputDir smap ik tp today = none) := by
  constructor
  · by_cases h : String.mk
        (pyLower (dictGet (parse_logseq_properties text) "public" "false").data) = "true"
    · simp [process_file, h]
    · simp [process_file, h]
  · intro h
    have hd : dictGet (parse_logseq_properties text) "public" "false" = "false" := by
      simp [dictGet, h]
    have h2 : String.mk (pyLower ("false" : String).data) ≠ "true" := by decide
    simp [process_file, hd, h2]

theorem public_filter_iff_witness :
    (parse_logseq_properties "title:: x").lookup "public" = none ∧
      process_file "title:: x" "p.md" ["r"] DEFAULT_SECTIONS [] [] "D" = none :=
  ⟨by decide,
   (public_filter_iff "title:: x" "p.md" ["r"] DEFAULT_SECTIONS [] [] "D").2
     (by decide)⟩

/-- C4: for a body line unpacked by the bullet pattern to (depth, content):
an inline property whose key is in the internal key set drops the whole
line; one whose key is not keeps only the trimmed value; and after inline
rewriting the emitted line is the bare content at depth 0, and
`(depth-1)` doubled spaces, the bullet marker and the content at
depth ≥ 1 (the hypotheses record that the line reaches the bullet branch:
it is not an unconditional `collapsed::`/`id::` drop nor an empty
bullet). -/
theorem bullet_line_conversion (ik : List String) (lang l : List Char)
    (tabs : Nat) (content : List Char)
    (hb : bulletMatch l = some (tabs, content))
    (h1 : collapsedMatch l = false) (h2 : idMatch l = false)
    (h3 : emptyBulletMatch l = false) :
    (∀ k v, propKeyMatch (pyStrip content) = some (k, v) →
      (String.mk (pyLower k) ∈ ik → processBody ik lang l = none) ∧
      (String.mk (pyLower k) ∉ ik →
        processBody ik lang l =
          some (bulletFormat tabs (apply_inline_conversions lang (pyStrip v))))) ∧
    (propKeyMatch (pyStrip content) = none →
      processBody ik lang l =
        some (bulletFormat tabs (apply_inline_conversions lang content))) := by
  refine ⟨fun k v hkv => ⟨fun hmem => ?_, fun hmem => ?_⟩, fun hnone => ?_⟩
  · simp [processBody, h1, h2, h3, hb, hkv, hmem]
  · simp [processBody, h1, h2, h3, hb, hkv, hmem]
  · simp [processBody, h1, h2, h3, hb, hnone]

theorem bullet_line_conversion_witness :
    processBody ["foo"] "fr".data "\t- foo:: bar".data = none ∧
    processBody [] "fr".data "\t- foo:: bar".data = some "- bar".data ∧
    processBody [] "fr".data "\t\t- hey".data = some "  - hey".data := by
  refine ⟨?_, ?_, ?_⟩
  · exact ((bullet_line_conversion ["foo"] "fr".data "\t- foo:: bar".data 1
      "foo:: bar".data (by decide) (by decide) (by decide) (by decide)).1
      "foo".data "bar".data (by decide)).1 (by decide)
  · exact (((bullet_line_conversion [] "fr".data "\t- foo:: bar".data 1
      "foo:: bar".data (by decide) (by decide) (by decide) (by decide)).1
      "foo".data "bar".data (by decide)).2 (by decide)).trans (by decide)
  · exact ((bullet_line_conversion [] "fr".data "\t\t- hey".data 2 "hey".data
      (by decide) (by decide) (by decide) (by decide)).2 (by decide)).trans
      (by decide)

/-- C6: `output_path` resolves the destination as
root / lang / section / filename, where lang is the (defaulted) `lang`
property lowercased with underscores replaced by hyphens, section is the
mapped section when the type is mapped (an empty string dropping the
component) and the raw type otherwise, and the filename is `slug.md`
exactly for the types `post` and `blog` and `_index.md` otherwise; under
the default SectionsMap a `post` with slug `hi` and lang `fr` lands at
root/fr/blog/hi.md and a `page` at root/fr/_index.md. -/
theorem output_path_resolution :
    (∀ (props : List (String × String)) (outputDir : List String)
        (smap : List (String × String)),
      output_path props outputDir smap =
        outputDir ++
          [String.mk (pyReplaceUnderscore (pyLower (dictGet props "lang" "fr").data))] ++
          (if dictGet smap (dictGet props "type" "page") (dictGet props "type" "page") ≠ ""
           then [dictGet smap (dictGet props "type" "page") (dictGet props "type" "page")]
           else []) ++
          [if dictGet props "type" "page" = "post" ∨ dictGet props "type" "page" = "blog"
           then dictGet props "slug" "page" ++ ".md" else "_index.md"]) ∧
    output_path [("type", "post"), ("slug", "hi"), ("lang", "fr")] ["root"]
        DEFAULT_SECTIONS = ["root", "fr", "blog", "hi.md"] ∧
    output_path [("type", "page")] ["root"] DEFAULT_SECTIONS =
      ["root", "fr", "_index.md"] := by
  refine ⟨?_, by decide, by decide⟩
  intro props outputDir smap
  by_cases hp : dictGet props "type" "page" = "post" ∨ dictGet props "type" "page" = "blog"
  · have hb : (dictGet props "type" "page" == "post" ||
        dictGet props "type" "page" == "blog") = true := by
      rcases hp with h | h <;> simp [h]
    simp [output_path, hb, hp]
  · have hb : (dictGet props "type" "page" == "post" ||
        dictGet props "type" "page" == "blog") = false := by
      rw [not_or] at hp
      simp [hp.1, hp.2]
    simp [output_path, hb, hp]

/-- C7 (counterexample): the `date` field value is not wrapped in double
quotes: with a `date` property the emitted line is `date: <value>` bare, and
no quoted variant is emitted, contradicting the claim that every listed
string field value (including date) is quoted. -/
theorem date_value_not_quoted :
    "date: 2020-01-01" ∈
      buildFrontMatterLines [("title", "T"), ("date", "2020-01-01")] "p.md" [] [] "X" ∧
    "date: \"2020-01-01\"" ∉
      buildFrontMatterLines [("title", "T"), ("date", "2020-01-01")] "p.md" [] [] "X" := by
  refine ⟨by decide, by decide⟩

/-- C7 (amended): every emitted string field value except date — title,
slug, type, description, translationKey, and each tag entry — is wrapped in
double quotes, while the date value is emitted bare; in all cases the value
is inserted verbatim, so embedded double quotes are not escaped (visible in
the conclusion's plain concatenations, which hold for values containing
`"` as well). -/
theorem front_matter_quoting (props : List (String × String))
    (srcFile : String) (tags : List String) (tp : List (String × String))
    (today : String) :
    ("title: \"" ++ dictGet props "title" (pathStem srcFile) ++ "\"") ∈
      buildFrontMatterLines props srcFile tags tp today ∧
    ("slug: \"" ++
        dictGet props "slug"
          (String.mk (slugify (pyLower (dictGet props "title" (pathStem srcFile)).data))) ++
        "\"") ∈ buildFrontMatterLines props srcFile tags tp today ∧
    ("type: \"" ++ dictGet props "type" "page" ++ "\"") ∈
      buildFrontMatterLines props srcFile tags tp today ∧
    ("date: " ++ dictGet props "date" today) ∈
      buildFrontMatterLines props srcFile tags tp today ∧
    (dictGet props "description" "" ≠ "" →
      ("description: \"" ++ dictGet props "description" "" ++ "\"") ∈
        buildFrontMatterLines props srcFile tags tp today) ∧
    (dictGet props "translationkey" "" ≠ "" →
      ("translationKey: \"" ++ dictGet props "translationkey" "" ++ "\"") ∈
        buildFrontMatterLines props srcFile tags tp today) ∧
    (tags ≠ [] →
      ("tags: [" ++
          String.intercalate ", " (tags.map (fun t => "\"" ++ t ++ "\"")) ++ "]") ∈
        buildFrontMatterLines props srcFile tags tp today) := by
  refine ⟨?_, ?_, ?_, ?_, fun hd => ?_, fun htk => ?_, fun htg => ?_⟩
  · simp [buildFrontMatterLines]
  · simp [buildFrontMatterLines]
  · simp [buildFrontMatterLines]
  · simp [buildFrontMatterLines]
  · simp [buildFrontMatterLines, hd]
  · simp [buildFrontMatterLines, htk]
  · simp [buildFrontMatterLines, htg]

theorem front_matter_quoting_witness :
    ("title: \"" ++ dictGet [("title", "A\"B"), ("description", "D"),
        ("translationkey", "K")] "title" (pathStem "p.md") ++ "\"") ∈
      buildFrontMatterLines [("title", "A\"B"), ("description", "D"),
        ("translationkey", "K")] "p.md" ["t1"] [] "X" ∧
    ("date: " ++ dictGet [("title", "A\"B"), ("description", "D"),
        ("translationkey", "K")] "date" "X") ∈
      buildFrontMatterLines [("title", "A\"B"), ("description", "D"),
        ("translationkey", "K")] "p.md" ["t1"] [] "X" ∧
    ("description: \"" ++ dictGet [("title", "A\"B"), ("description", "D"),
        ("translationkey", "K")] "description" "" ++ "\"") ∈
      buildFrontMatterLines [("title", "A\"B"), ("description", "D"),
        ("translationkey", "K")] "p.md" ["t1"] [] "X" ∧
    ("translationKey: \"" ++ dictGet [("title", "A\"B"), ("description", "D"),
        ("translationkey", "K")] "translationkey" "" ++ "\"") ∈
      buildFrontMatterLines [("title", "A\"B"), ("description", "D"),
        ("translationkey", "K")] "p.md" ["t1"] [] "X" ∧
    ("tags: [" ++ String.intercalate ", "
        (["t1"].map (fun t => "\"" ++ t ++ "\"")) ++ "]") ∈
      buildFrontMatterLines [("title", "A\"B"), ("description", "D"),
        ("translationkey", "K")] "p.md" ["t1"] [] "X" := by
  have h := front_matter_quoting
    [("title", "A\"B"), ("description", "D"), ("translationkey", "K")]
    "p.md" ["t1"] [] "X"
  exact ⟨h.1, h.2.2.2.1, h.2.2.2.2.1 (by decide), h.2.2.2.2.2.1 (by decide),
    h.2.2.2.2.2.2 (by decide)⟩

/-- C9: the language code embedded in inline tag links is the `lang`
property lowercased with underscores kept, while the output path's language
directory lowercases and replaces underscores by hyphens.  Conjuncts: the
tag rule rewrites a tag token into a link embedding `lang` verbatim; the
path component after the output root is the lowercased,
underscore-to-hyphen language; and, end to end, a page with `lang:: zh_TW`
gets its tag link under /zh_tw/tags/ while its file lands in the zh-tw/
directory. -/
theorem tag_link_lang_vs_path_lang :
    (∀ (lang : String) (t : List Char), t ≠ [] → (∀ c ∈ t, isWordChar c = true) →
      tagSub lang.data ('#' :: t) =
        "[#".data ++ t ++ "](/".data ++ lang.data ++ "/tags/".data ++
          pyLower t ++ "/)".data) ∧
    (∀ (props : List (String × String)) (outputDir : List String)
        (smap : List (String × String)),
      (output_path props outputDir smap)[outputDir.length]? =
        some (String.mk (pyReplaceUnderscore (pyLower (dictGet props "lang" "fr").data)))) ∧
    process_file "public:: true\nlang:: zh_TW\n- #Tag" "p.md" ["root"]
        DEFAULT_SECTIONS [] [] "2020-01-01" =
      some (["root", "zh-tw", "_index.md"],
        "---\ntitle: \"p\"\nslug: \"p\"\ntype: \"page\"\ndate: 2020-01-01\ntags: [\"Tag\"]\n---\n\n[#Tag](/zh_tw/tags/tag/)") := by
  refine ⟨?_, ?_, by decide⟩
  · intro lang t ht hall
    cases t with
    | nil => exact absurd rfl ht
    | cons d t2 =>
      have hd : isWordChar d = true := hall d (List.mem_cons_self _ _)
      have htw : (d :: t2).takeWhile isTagChar = d :: t2 := by
        rw [List.takeWhile_eq_self_iff]
        intro a ha
        simp [isTagChar, hall a ha]
      simp only [tagSub, List.length_cons]
      simp [tagSubAux, hd, htw, List.drop_length]
  · intro props outputDir smap
    simp only [output_path]
    rw [List.append_assoc, List.append_assoc,
      List.getElem?_append_right (le_refl _)]
    simp

theorem tag_link_lang_vs_path_lang_witness :
    tagSub "en".data ('#' :: "Tag".data) =
      "[#".data ++ "Tag".data ++ "](/".data ++ "en".data ++ "/tags/".data ++
        pyLower "Tag".data ++ "/)".data :=
  tag_link_lang_vs_path_lang.1 "en" "Tag".data (by decide) (by decide)

/-- C10: when a `post`/`blog` page has no `slug` property, `output_path`
falls back to the constant `"page"` and the resolved filename is the literal
`page.md` — not the title-derived slug that `build_front_matter` emits — so
any two slug-less posts with the same language and section resolve to the
same output file; concretely a slug-less post titled "My Post" gets front
matter slug `my-post` but is written to r/fr/blog/page.md. -/
theorem default_slug_page_filename :
    (∀ (props : List (String × String)) (outputDir : List String)
        (smap : List (String × String)),
      props.lookup "slug" = none →
      (dictGet props "type" "page" = "post" ∨ dictGet props "type" "page" = "blog") →
      (output_path props outputDir smap).getLast? = some "page.md") ∧
    (∀ (p1 p2 : List (String × String)) (outputDir : List String)
        (smap : List (String × String)),
      p1.lookup "slug" = none → p2.lookup "slug" = none →
      (dictGet p1 "type" "page" = "post" ∨ dictGet p1 "type" "page" = "blog") →
      (dictGet p2 "type" "page" = "post" ∨ dictGet p2 "type" "page" = "blog") →
      dictGet p1 "lang" "fr" = dictGet p2 "lang" "fr" →
      dictGet smap (dictGet p1 "type" "page") (dictGet p1 "type" "page") =
        dictGet smap (dictGet p2 "type" "page") (dictGet p2 "type" "page") →
      output_path p1 outputDir smap = output_path p2 outputDir smap) ∧
    "slug: \"my-post\"" ∈
      buildFrontMatterLines [("type", "post"), ("title", "My Post")] "x.md" [] [] "D" ∧
    output_path [("type", "post"), ("title", "My Post")] ["r"] DEFAULT_SECTIONS =
      ["r", "fr", "blog", "page.md"] := by
  refine ⟨?_, ?_, by decide, by decide⟩
  · intro props outputDir smap hs hp
    have hb : (dictGet props "type" "page" == "post" ||
        dictGet props "type" "page" == "blog") = true := by
      rcases hp with h | h <;> simp [h]
    have hslug : dictGet props "slug" "page" = "page" := by simp [dictGet, hs]
    simp only [output_path, hb, hslug]
    by_cases hsec : dictGet smap (dictGet props "type" "page")
        (dictGet props "type" "page") = ""
    · simp [hsec, List.getLast?_append_cons]
    · simp [hsec, List.getLast?_append_cons, List.getLast?_cons_cons]
  · intro p1 p2 outputDir smap hs1 hs2 hp1 hp2 hlang hsect
    have hb1 : (dictGet p1 "type" "page" == "post" ||
        dictGet p1 "type" "page" == "blog") = true := by
      rcases hp1 with h | h <;> simp [h]
    have hb2 : (dictGet p2 "type" "page" == "post" ||
        dictGet p2 "type" "page" == "blog") = true := by
      rcases hp2 with h | h <;> simp [h]
    have hq1 : dictGet p1 "slug" "page" = "page" := by simp [dictGet, hs1]
    have hq2 : dictGet p2 "slug" "page" = "page" := by simp [dictGet, hs2]
    simp [output_path, hb1, hb2, hq1, hq2, hlang, hsect]

theorem default_slug_page_filename_witness :
    (output_path [("type", "post")] ["r"] DEFAULT_SECTIONS).getLast? =
      some "page.md" ∧
    output_path [("type", "post"), ("lang", "en")] ["r"] DEFAULT_SECTIONS =
      output_path [("type", "blog"), ("lang", "en"), ("title", "Z")] ["r"]
        DEFAULT_SECTIONS := by
  refine ⟨?_, ?_⟩
  · exact (default_slug_page_filename).1 [("type", "post")] ["r"]
      DEFAULT_SECTIONS (by decide) (by decide)
  · exact (default_slug_page_filename).2.1 [("type", "post"), ("lang", "en")]
      [("type", "blog"), ("lang", "en"), ("title", "Z")] ["r"] DEFAULT_SECTIONS
      (by decide) (by decide) (by decide) (by decide) (by decide) (by decide)

end LogseqHugo
